import Mathlib

/-!
Verification development for a simulator of exact and approximate
parallel-prefix adders (Brent-Kung, Kogge-Stone, Sklansky, Ladner-Fischer).

Bits are `Bool`, bit vectors are `List Bool` with index 0 the least
significant bit.  Each Python engine is embedded as a Lean function; the
evolving per-stage (G, P) arrays are embedded as total functions
`Nat → GP` (positions outside `[0, W)` carry junk that is never read),
and engines return `Option (List Bool)`: `none` models a Python
exception (IndexError / ValueError / failed assert).
-/

/-- A generate/propagate pair `(G, P)` attached to one bit position. -/
abbrev GP := Bool × Bool

/-- `utils.prefix_operator(g_left, p_left, g_right, p_right)`:
`G_out = g_right | (p_right & g_left)`, `P_out = p_right & p_left`.
First argument is the left (less significant) span, second the right. -/
def mergeOp (l r : GP) : GP := (r.1 || (r.2 && l.1), r.2 && l.2)

/-- `approxAdders.approx_prefix_operator`: returns the right operand
unchanged (`G_out = g_right`, `P_out = p_right`), discarding the left. -/
def approxMergeOp (_left r : GP) : GP := r

/-- `utils.bin_list_to_int` / `base_adder.from_bits` (LSB-first). -/
def binListToInt (bs : List Bool) : ℕ :=
  bs.foldr (fun b acc => 2 * acc + b.toNat) 0

/-- Bit `i` of the natural number `x`; `(x >> i) & 1` in the source. -/
def natBit (x i : ℕ) : Bool := decide (x / 2 ^ i % 2 = 1)

/-- `utils.int_to_bin_list` / `base_adder.to_bits` (LSB-first, width `W`). -/
def intToBinList (x W : ℕ) : List Bool :=
  List.ofFn (n := W) fun i => natBit x i.val

/-- Bounded search used to define `clog2` without well-founded recursion. -/
def clog2Aux (W : ℕ) : ℕ → ℕ → ℕ
  | 0, L => L
  | fuel + 1, L => if W ≤ 2 ^ L then L else clog2Aux W fuel (L + 1)

/-- `int(math.ceil(math.log2(W)))` for `W ≥ 1`: the least `L` with
`W ≤ 2 ^ L`.  (For `W = 0` the Python call raises; engines guard that
case separately.) -/
def clog2 (W : ℕ) : ℕ := clog2Aux W (W + 1) 0

/-- Stage-0 generate/propagate signals:
`g[i] = a[i] & b[i]`, `p[i] = a[i] ^ b[i]`
(`exactAdders` lines 19-20, `approxAdders` lines 41-42,
`base_adder.bitwise_generate_propagate`). -/
def gpFun (a b : List Bool) : ℕ → GP := fun i =>
  (a.getD i false && b.getD i false, (a.getD i false).xor (b.getD i false))

/-- Iterate stage transformers: `stagesFrom f st s` is the (G, P) array
after stages `0, 1, ..., s-1` (stage `s` of the source uses distance
`2 ^ (s-1)`; here stage index `s` is 0-based with distance `2 ^ s`). -/
def stagesFrom (f : ℕ → (ℕ → GP) → (ℕ → GP)) (st : ℕ → GP) : ℕ → (ℕ → GP)
  | 0 => st
  | s + 1 => f s (stagesFrom f st s)

/-- The Kogge-Stone merge schedule at distance `d` with a resolved
exact operator: position `i < W` with `i - d >= 0` merges with `i - d`,
other positions pass through.  This is the loop body of
`exactAdders.ks_adder` (lines 98-118) with `prefix_operator` bound
(which `approxAdders.approx_ks_adder` realizes in its exact branch,
lines 122-127, having imported the operator), and also the forward pass
of `exactAdders.bk_adder` (lines 38-55) as used by `bkLoop`. -/
def ksStage (W d : ℕ) (st : ℕ → GP) : ℕ → GP := fun i =>
  if i < W ∧ d ≤ i then mergeOp (st (i - d)) (st i) else st i

/-- The Sklansky merge schedule at distance `d` with a resolved exact
operator (the loop of `exactAdders.sk_adder` lines 161-181, realized
with the operator bound by `approxAdders.approx_sk_adder`'s exact
branch, lines 184-188): the range splits into blocks of size `2d`; the
first `d` positions of each block pass through, each remaining position
`i` merges with the last position of the block's first half, which
still holds its previous-stage value (the source reads it from
`G_curr` right after copying it from `G_prev`). -/
def skStage (W d : ℕ) (st : ℕ → GP) : ℕ → GP := fun i =>
  if i < W ∧ d ≤ i % (2 * d) then
    mergeOp (st (2 * d * (i / (2 * d)) + d - 1)) (st i)
  else st i

/-- The Ladner-Fischer merge schedule at distance `d` with a resolved
exact operator (the loop of `exactAdders.lf_adder` lines 223-234,
realized with the operator bound by `approxAdders.approx_lf_adder`'s
exact branch, lines 238-242): the single sub-pass (`step = dist`; the
`step <<= 1` doubling exits the `step < 2*dist` loop immediately)
merges positions `i = dist, 3*dist, 5*dist, ...` with `i - dist`; the
values read at `i - dist` are even multiples of `dist`, untouched in
this stage, so they equal the previous-stage values. -/
def lfStage (W d : ℕ) (st : ℕ → GP) : ℕ → GP := fun i =>
  if i < W ∧ i % (2 * d) = d then mergeOp (st (i - d)) (st i) else st i

/-- `sum[i] = p[i] ^ c[i]` with `c[0] = 0`, `c[i+1] = G_final[i]`
(`exactAdders` lines 61-71 etc.). -/
def mkSumBits (W : ℕ) (p : ℕ → Bool) (fin : ℕ → GP) : List Bool :=
  List.ofFn (n := W) fun i =>
    (p i.val).xor (if i.val = 0 then false else (fin (i.val - 1)).1)

/-- Option-threaded stage iteration for the engines of `exactAdders.py`,
whose stage bodies can raise: `none` aborts the remaining stages. -/
def stagesFromOpt (f : ℕ → (ℕ → GP) → Option (ℕ → GP)) (st : ℕ → GP) :
    ℕ → Option (ℕ → GP)
  | 0 => some st
  | s + 1 => (stagesFromOpt f st s).bind (f s)

/-- One stage of `exactAdders.ks_adder` as the module actually executes
it: `exactAdders.py` imports only `math`, so the name `prefix_operator`
is unbound and the first merge a stage attempts raises NameError.  The
stage at distance `d` reaches a merge iff `d < W` (the first merging
position is `i = d`, whose partner is `i - d = 0`); with no merge, every
position passes through unchanged. -/
def ksStageRaise (W d : ℕ) (st : ℕ → GP) : Option (ℕ → GP) :=
  if d < W then none else some st

/-- One stage of `exactAdders.sk_adder` as executed: same unbound
`prefix_operator`.  The stage at distance `d` reaches a merge iff
`d < W` (block 0 copies positions `0..d-1` and then its first merge
target is `j2 = block_end = d`, which exists exactly when `d < W`). -/
def skStageRaise (W d : ℕ) (st : ℕ → GP) : Option (ℕ → GP) :=
  if d < W then none else some st

/-- One stage of `exactAdders.lf_adder` as executed: same unbound
`prefix_operator`.  The sub-pass runs only under the guard
`step < W` (with `step = dist = d`), and its first merge target is
`i = d`; so the stage raises iff `d < W`. -/
def lfStageRaise (W d : ℕ) (st : ℕ → GP) : Option (ℕ → GP) :=
  if d < W then none else some st

/-- `exactAdders.ks_adder`.  `none` models the IndexError raised when
`b` is shorter than `a`, the `math.log2(0)` ValueError at `W = 0`, and
the NameError raised at the first merge of the first stage (the module
never imports `prefix_operator`), which happens on every input with
`W ≥ 2`.  For `W = 1` no stage loop runs and the engine returns the
single sum bit `p[0]`. -/
def ks_adder (a b : List Bool) : Option (List Bool) :=
  let W := a.length
  if b.length < W then none
  else if W = 0 then none
  else
    match stagesFromOpt (fun s st => ksStageRaise W (2 ^ s) st) (gpFun a b)
        (clog2 W) with
    | none => none
    | some fin => some (mkSumBits W (fun i => (gpFun a b i).2) fin)

/-- `exactAdders.sk_adder`; the same unbound `prefix_operator`, so it
raises on every input with `W ≥ 2` and returns `[p[0]]` at `W = 1`. -/
def sk_adder (a b : List Bool) : Option (List Bool) :=
  let W := a.length
  if b.length < W then none
  else if W = 0 then none
  else
    match stagesFromOpt (fun s st => skStageRaise W (2 ^ s) st) (gpFun a b)
        (clog2 W) with
    | none => none
    | some fin => some (mkSumBits W (fun i => (gpFun a b i).2) fin)

/-- `exactAdders.lf_adder`; the same unbound `prefix_operator`, so it
raises on every input with `W ≥ 2` and returns `[p[0]]` at `W = 1`. -/
def lf_adder (a b : List Bool) : Option (List Bool) :=
  let W := a.length
  if b.length < W then none
  else if W = 0 then none
  else
    match stagesFromOpt (fun s st => lfStageRaise W (2 ^ s) st) (gpFun a b)
        (clog2 W) with
    | none => none
    | some fin => some (mkSumBits W (fun i => (gpFun a b i).2) fin)

/-- The forward loop of `exactAdders.bk_adder` (lines 36-55).  The
buffers `g_fwd`/`p_fwd` are allocated with `log_w` rows (indices
`0 .. log_w - 1`, line 28), but iteration `lvl` writes row `lvl`;
`lvl < L` is the Python bounds check, and its failure (IndexError) is
`none`.  The merges of one iteration follow the Kogge-Stone pattern
(`j = i - dist`), hence `ksStage`.  `fuel = L + 1` covers every
iteration the `dist < W` loop could perform, since `dist` doubles from
1 and `2 ^ L ≥ W`. -/
def bkLoop (W L : ℕ) : ℕ → ℕ → ℕ → (ℕ → GP) → Option (ℕ → GP)
  | 0, _, _, st => some st
  | fuel + 1, dist, lvl, st =>
    if dist < W then
      if lvl < L then bkLoop W L fuel (2 * dist) (lvl + 1) (ksStage W dist st)
      else none
    else some st

/-- `exactAdders.bk_adder`.  For `W = 1` the row count `log_w` is 0 and
already the stage-0 initialisation `g_fwd[0][i] = g[i]` (line 33) is an
IndexError (`L = 0` branch); for `W ≥ 2` the forward loop fails as well
(for `W ≥ 3` the first merge raises NameError, `prefix_operator` being
unbound in this module; for `W = 2`, and under a resolved operator in
general, the loop overruns the `log_w`-row buffer -- see `bkLoop`).
Observably the engine raises on every input; in the (unreachable)
non-error case the final carries would come from row `log_w - 1`. -/
def bk_adder (a b : List Bool) : Option (List Bool) :=
  let W := a.length
  if b.length < W then none
  else if W = 0 then none
  else
    let L := clog2 W
    if L = 0 then none
    else
      match bkLoop W L (L + 1) 1 1 (gpFun a b) with
      | none => none
      | some fin => some (mkSumBits W (fun i => (gpFun a b i).2) fin)

/-- One approximate Kogge-Stone stage (`approxAdders.approx_ks_adder`
lines 113-132): like `ksStage` but a merge whose target index `i` is
below the boundary `K` uses the approximate operator. -/
def ksStageA (K : Int) (W d : ℕ) (st : ℕ → GP) : ℕ → GP := fun i =>
  if i < W ∧ d ≤ i then
    (if (i : Int) < K then approxMergeOp else mergeOp) (st (i - d)) (st i)
  else st i

/-- One approximate Sklansky stage (`approxAdders.approx_sk_adder`
lines 168-193): like `skStage`, approximate when the target `j2 < K`. -/
def skStageA (K : Int) (W d : ℕ) (st : ℕ → GP) : ℕ → GP := fun i =>
  if i < W ∧ d ≤ i % (2 * d) then
    (if (i : Int) < K then approxMergeOp else mergeOp)
      (st (2 * d * (i / (2 * d)) + d - 1)) (st i)
  else st i

/-- One approximate Ladner-Fischer stage (`approxAdders.approx_lf_adder`
lines 229-246): like `lfStage`, approximate when the target `i < K`. -/
def lfStageA (K : Int) (W d : ℕ) (st : ℕ → GP) : ℕ → GP := fun i =>
  if i < W ∧ i % (2 * d) = d then
    (if (i : Int) < K then approxMergeOp else mergeOp) (st (i - d)) (st i)
  else st i

/-- `approxAdders.approx_ks_adder`.  The final carries read the last
stage, `G_stages[log_w]` (line 139). -/
def approx_ks_adder (a b : List Bool) (K : Int) : Option (List Bool) :=
  let W := a.length
  if b.length < W then none
  else if W = 0 then none
  else
    let gp := gpFun a b
    let fin := stagesFrom (fun s st => ksStageA K W (2 ^ s) st) gp (clog2 W)
    some (mkSumBits W (fun i => (gp i).2) fin)

/-- `approxAdders.approx_sk_adder` (reads `G_stages[-1]`, the last
stage). -/
def approx_sk_adder (a b : List Bool) (K : Int) : Option (List Bool) :=
  let W := a.length
  if b.length < W then none
  else if W = 0 then none
  else
    let gp := gpFun a b
    let fin := stagesFrom (fun s st => skStageA K W (2 ^ s) st) gp (clog2 W)
    some (mkSumBits W (fun i => (gp i).2) fin)

/-- `approxAdders.approx_lf_adder` (reads `G_stages[-1]`, the last
stage). -/
def approx_lf_adder (a b : List Bool) (K : Int) : Option (List Bool) :=
  let W := a.length
  if b.length < W then none
  else if W = 0 then none
  else
    let gp := gpFun a b
    let fin := stagesFrom (fun s st => lfStageA K W (2 ^ s) st) gp (clog2 W)
    some (mkSumBits W (fun i => (gp i).2) fin)

/-- `approxAdders.approx_bk_adder`.  Its forward pass is the same
merge schedule as the approximate Kogge-Stone one, stored in a buffer
of `log_w + 1` preallocated rows, so no write overruns; but the final
carries read `G[log_w - 1]` (line 86) -- the SECOND TO LAST stage.  The
`while dist < W` loop writes exactly `log_w` stages, so for `W ≥ 2` the
carries come from stage `log_w - 1`; for `W = 1` (`log_w = 0`) the
Python index `-1` wraps to the single row 0, which is `clog2 1 - 1 = 0`
under truncated subtraction as well. -/
def approx_bk_adder (a b : List Bool) (K : Int) : Option (List Bool) :=
  let W := a.length
  if b.length < W then none
  else if W = 0 then none
  else
    let gp := gpFun a b
    let fin := stagesFrom (fun s st => ksStageA K W (2 ^ s) st) gp (clog2 W - 1)
    some (mkSumBits W (fun i => (gp i).2) fin)

/-- Modelled from the spec: the repository imports `axpo_generate` from
`adders/axpo.py`, which is missing from the sources; per the spec's
"bit-local approximation (`generate[i] ≈ g[i]`)" and the comment
"Actually just g[i+1] ≈ g[i]" it is the identity on the generate bit. -/
def axpoGenerate (g : Bool) : Bool := g

/-- Modelled from the spec: `axpo_propagate` from the missing
`adders/axpo.py`; identity on the propagate bit
(`propagate[i] ≈ p[i]`). -/
def axpoPropagate (p : Bool) : Bool := p

/-- `axppabk.AxppaBk._approx_prefix_logic` carry recurrence:
`carry[0] = 0`, `carry[i+1] = axpo_generate(g[i]) | (axpo_propagate(p[i]) & carry[i])`. -/
def axChainCarry (g p : ℕ → Bool) : ℕ → Bool
  | 0 => false
  | i + 1 => axpoGenerate (g i) || (axpoPropagate (p i) && axChainCarry g p i)

/-- Python `n.bit_length()`: least `L` with `n < 2 ^ L`. -/
def bitLen (n : ℕ) : ℕ := clog2 (n + 1)

/-- Upward (reduce) pass stage of `axppabk.AxppaBk._exact_prefix_bk`
(lines 32-35): `for i in range((1 << d) - 1, n, 1 << d)` updates
`g[i], p[i]` by merging with position `i - 2^(d-1)`; the read positions
are never written in the same stage. -/
def bkUpStage (n d : ℕ) (st : ℕ → GP) : ℕ → GP := fun i =>
  if i < n ∧ i % 2 ^ d = 2 ^ d - 1 then
    mergeOp (st (i - 2 ^ (d - 1))) (st i)
  else st i

/-- Downward (propagate) pass stage of `_exact_prefix_bk` (lines 38-41):
`for i in range((1 << d) + (1 << (d - 1)) - 1, n, 1 << d)`. -/
def bkDownStage (n d : ℕ) (st : ℕ → GP) : ℕ → GP := fun i =>
  if i < n ∧ i % 2 ^ d = 2 ^ (d - 1) - 1 ∧ 2 ^ d + 2 ^ (d - 1) - 1 ≤ i then
    mergeOp (st (i - 2 ^ (d - 1))) (st i)
  else st i

/-- Upward stages `d = 1 .. j` applied in increasing order. -/
def bkUpRun (n : ℕ) (st : ℕ → GP) : ℕ → (ℕ → GP)
  | 0 => st
  | j + 1 => bkUpStage n (j + 1) (bkUpRun n st j)

/-- Downward stages applied in decreasing order: `bkDownRun n L st j`
applies distances `L - 1, L - 2, ..., L - j`. -/
def bkDownRun (n L : ℕ) (st : ℕ → GP) : ℕ → (ℕ → GP)
  | 0 => st
  | j + 1 => bkDownStage n (L - 1 - j) (bkDownRun n L st j)

/-- `axppabk.AxppaBk._exact_prefix_bk`: carries `c` over `n` bit
positions with zero carry-in; `c[0] = 0`, `c[i+1] = g[i]` after the
two sweeps (`logn = n.bit_length()`; both `d`-loops run over
`range(1, logn)`). -/
def exactPrefixBk (n : ℕ) (gp : ℕ → GP) : ℕ → Bool := fun i =>
  if i = 0 then false
  else
    (bkDownRun n (bitLen n) (bkUpRun n gp (bitLen n - 1)) (bitLen n - 1)
      (i - 1)).1

/-- `base_adder.bitwise_generate_propagate` applied to
`to_bits(a, width)` and `to_bits(b, width)` as in `AxppaBk.add`
(lines 50-53). -/
def axGP (a b : ℕ) : ℕ → GP := fun i =>
  (natBit a i && natBit b i, (natBit a i).xor (natBit b i))

/-- The final carry-out `approx_carry[-1]` of the `k`-bit LSB chain in
`AxppaBk.add` (line 65). -/
def axSeed (k a b : ℕ) : Bool :=
  axChainCarry (fun i => (axGP a b i).1) (fun i => (axGP a b i).2) k

/-- `exact_carry` of `AxppaBk.add` (line 63): the exact Brent-Kung tree
carries over the upper `width - k` slices of the operands, computed
with zero carry-in. -/
def axTreeCarry (width k a b : ℕ) : ℕ → Bool :=
  exactPrefixBk (width - k) (fun i => axGP a b (k + i))

/-- The sum-bit list assembled by `axppabk.AxppaBk.add` (lines 49-69):
the `k` LSB positions use the approximate ripple chain, the remaining
`width - k` positions use the exact Brent-Kung tree over the upper
slices, whose carry-in slot `exact_carry[0]` is overwritten with the
chain's final carry-out AFTER the tree carries were computed (line 65)
-- so position `k + i` sees the seed only at `i = 0`. -/
def axppaBkSumBits (width k a b : ℕ) : List Bool :=
  (List.ofFn (n := k) fun i =>
    (axGP a b i.val).2.xor
      (axChainCarry (fun j => (axGP a b j).1) (fun j => (axGP a b j).2) i.val)) ++
    (List.ofFn (n := width - k) fun i =>
      (axGP a b (k + i.val)).2.xor
        (if i.val = 0 then axSeed k a b else axTreeCarry width k a b i.val))

/-- `axppabk.AxppaBk`: `__init__` asserts `0 <= approx_bits <= width`
(line 10); a failing assert is `none`.  `add` returns
`from_bits(full_sum)`. -/
def axppaBkAdd (width : ℕ) (k : Int) (a b : ℕ) : Option ℕ :=
  if 0 ≤ k ∧ k ≤ (width : Int) then
    some (binListToInt (axppaBkSumBits width k.toNat a b))
  else none

/-- Stated from claim C9's wording: `sum[0] = a[0] XOR b[0]` and
`sum[i] = (a[i] XOR b[i]) XOR (a[i-1] AND b[i-1])` -- every carry chain
truncated to length one. -/
def truncCarryFormula (a b : List Bool) : List Bool :=
  List.ofFn (n := a.length) fun i =>
    ((a.getD i.val false).xor (b.getD i.val false)).xor
      (if i.val = 0 then false
       else a.getD (i.val - 1) false && b.getD (i.val - 1) false)

/-- Stated from claim C5's wording (the claimed behaviour): the value of
the upper `width - k` sum bits when the upper slices of `a` and `b` are
added exactly with carry-in equal to the final carry-out of the `k`-bit
LSB ripple chain. -/
def specUpperValue (width k a b : ℕ) : ℕ :=
  (a / 2 ^ k + b / 2 ^ k + (axSeed k a b).toNat) % 2 ^ (width - k)

/-! ### Basic facts about `clog2` -/

theorem clog2Aux_ge (W : ℕ) :
    ∀ fuel L, W ≤ 2 ^ (L + fuel) → W ≤ 2 ^ clog2Aux W fuel L := by
  intro fuel
  induction fuel with
  | zero => intro L h; simpa using h
  | succ n ih =>
    intro L h
    unfold clog2Aux
    split
    · assumption
    · apply ih
      have e : L + (n + 1) = (L + 1) + n := by omega
      rw [e] at h
      exact h

theorem clog2Aux_min (W : ℕ) :
    ∀ fuel L, (∀ M, M < L → 2 ^ M < W) →
      ∀ M, M < clog2Aux W fuel L → 2 ^ M < W := by
  intro fuel
  induction fuel with
  | zero => intro L h; simpa using h
  | succ n ih =>
    intro L h
    unfold clog2Aux
    split
    · exact h
    · next hc =>
      apply ih
      intro M hM
      rcases Nat.lt_or_ge M L with h1 | h1
      · exact h M h1
      · have : M = L := by omega
        subst this
        omega

theorem le_two_pow_clog2 (W : ℕ) : W ≤ 2 ^ clog2 W := by
  apply clog2Aux_ge
  calc W ≤ 2 ^ W := Nat.le_of_lt (Nat.lt_two_pow W)
  _ ≤ 2 ^ (0 + (W + 1)) := Nat.pow_le_pow_right (by norm_num) (by omega)

theorem two_pow_lt_of_lt_clog2 {W M : ℕ} (h : M < clog2 W) : 2 ^ M < W := by
  refine clog2Aux_min W (W + 1) 0 ?_ M h
  intro M hM
  omega

theorem clog2_pos {W : ℕ} (h : 2 ≤ W) : 1 ≤ clog2 W := by
  by_contra hc
  have h0 : clog2 W = 0 := by omega
  have := le_two_pow_clog2 W
  rw [h0] at this
  simp at this
  omega

/-! ### C2: the exact Brent-Kung engine never returns -/

theorem bkLoop_always_none (W L : ℕ) (hW : 2 ^ (L - 1) < W) :
    ∀ fuel lvl st, 1 ≤ lvl → lvl ≤ L → L - lvl < fuel →
      bkLoop W L fuel (2 ^ (lvl - 1)) lvl st = none := by
  intro fuel
  induction fuel with
  | zero => intro lvl st _ _ h3; omega
  | succ n ih =>
    intro lvl st h1 h2 h3
    have hd : 2 ^ (lvl - 1) < W := by
      calc 2 ^ (lvl - 1) ≤ 2 ^ (L - 1) := Nat.pow_le_pow_right (by norm_num) (by omega)
      _ < W := hW
    unfold bkLoop
    rw [if_pos hd]
    by_cases hl : lvl < L
    · rw [if_pos hl]
      have e : 2 * 2 ^ (lvl - 1) = 2 ^ ((lvl + 1) - 1) := by
        obtain ⟨m, rfl⟩ : ∃ m, lvl = m + 1 := ⟨lvl - 1, by omega⟩
        simp [Nat.pow_succ]
        ring
      rw [e]
      exact ih (lvl + 1) _ (by omega) (by omega) (by omega)
    · rw [if_neg hl]

theorem bk_adder_eq_none : ∀ a b : List Bool, bk_adder a b = none := by
  intro a b
  unfold bk_adder
  by_cases hb : b.length < a.length
  · rw [if_pos hb]
  · rw [if_neg hb]
    by_cases h0 : a.length = 0
    · rw [if_pos h0]
    · rw [if_neg h0]
      by_cases hL : clog2 a.length = 0
      · rw [if_pos hL]
      · rw [if_neg hL]
        have hW2 : 2 ≤ a.length := by
          by_contra hc
          have h1 : a.length = 1 := by omega
          rw [h1] at hL
          exact hL rfl
        have hpow : 2 ^ (clog2 a.length - 1) < a.length := by
          apply two_pow_lt_of_lt_clog2
          omega
        have := bkLoop_always_none a.length (clog2 a.length) hpow
          (clog2 a.length + 1) 1 (gpFun a b) (by omega) (by omega) (by omega)
        norm_num at this
        rw [this]

/-- Claim C2.  The claim asserts that every engine is total for W ≥ 1,
but `exactAdders.bk_adder` raises an exception on every input: its
forward buffers have `log_w` rows while the loop writes rows
`1 .. log_w` (for W = 1 even the stage-0 initialisation writes into an
empty buffer, and for W ≥ 3 the unbound `prefix_operator` already
raises at the first merge).  This theorem shows the embedded
`bk_adder` yields `none` (an exception) for ALL inputs, so it is total
for none. -/
theorem c2_bk_adder_never_returns : ∀ a b : List Bool, bk_adder a b = none :=
  bk_adder_eq_none

/-! ### C1: exactness at K = 0 fails for several engines -/

/-- Claim C1 fails on the code (code bug).  At W = 4 every exact
engine raises instead of returning the sum: `ks/sk/lf_adder` hit the
unbound name `prefix_operator` at their first merge, `bk_adder`
additionally overruns its `log_w`-row stage buffer.  And even among
the approximate engines at K = 0 (the spec's exact mode), which do
have the operator in scope, `approx_lf_adder` on a = 6, b = 2 returns 0
although (6+2) mod 16 = 8 (its schedule never merges the span ending
at bit 2 with bit 1, so the carry into bit 3 is wrong), and
`approx_bk_adder` on a = 1, b = 7 returns 0 although (1+7) mod 16 = 8
(it reads the second-to-last prefix stage). -/
theorem c1_exactness_at_k0_fails :
    ks_adder [false, true, true, false] [false, true, false, false] = none ∧
    sk_adder [false, true, true, false] [false, true, false, false] = none ∧
    lf_adder [false, true, true, false] [false, true, false, false] = none ∧
    bk_adder [false, true, true, false] [false, true, false, false] = none ∧
    approx_lf_adder [false, true, true, false] [false, true, false, false] 0 =
      some [false, false, false, false] ∧
    binListToInt [false, true, true, false] = 6 ∧
    binListToInt [false, true, false, false] = 2 ∧
    (6 + 2) % 16 = 8 ∧
    binListToInt [false, false, false, false] = 0 ∧
    approx_bk_adder [true, false, false, false] [true, true, true, false] 0 =
      some [false, false, false, false] ∧
    binListToInt [true, false, false, false] = 1 ∧
    binListToInt [true, true, true, false] = 7 ∧
    (1 + 7) % 16 = 8 := by
  decide

/-! ### C6: the concrete W = 4, a = 15, b = 1, K = 4 scenario -/

/-- Claim C6.  For W = 4, a = 15, b = 1, K = 4 the exact sum wraps to
0 mod 16, and all four approximate engines return the sum 1100₂ = 12,
whose integer value differs from 0. -/
theorem c6_w4_maximal_approx_scenario :
    (binListToInt [true, true, true, true] + binListToInt [true, false, false, false]) % 16 = 0 ∧
    approx_bk_adder [true, true, true, true] [true, false, false, false] 4 =
      some [false, false, true, true] ∧
    approx_ks_adder [true, true, true, true] [true, false, false, false] 4 =
      some [false, false, true, true] ∧
    approx_sk_adder [true, true, true, true] [true, false, false, false] 4 =
      some [false, false, true, true] ∧
    approx_lf_adder [true, true, true, true] [true, false, false, false] 4 =
      some [false, false, true, true] ∧
    binListToInt [false, false, true, true] = 12 ∧
    (12 : ℕ) ≠ 0 := by
  decide

/-! ### C8: the exact merge operator is associative, not commutative -/

/-- Claim C8.  The exact prefix merge operator is associative, and it
is not commutative: swapping the operands of `mergeOp` can change the
result. -/
theorem c8_merge_assoc_not_comm :
    (∀ x y z : GP, mergeOp (mergeOp x y) z = mergeOp x (mergeOp y z)) ∧
    (∃ x y : GP, mergeOp x y ≠ mergeOp y x) := by
  decide

/-! ### C3 counterexample: the K = 0 pairs differ -/

/-- Counterexample to claim C3: the approximate engine at K = 0 does
NOT produce the same result as the exact engine.  At a = 1, b = 7
(W = 4) `approx_bk_adder` returns a sum while `bk_adder` raises; at
a = 3, b = 1 (W = 2) `approx_ks_adder` returns the sum while
`ks_adder` raises (NameError: `prefix_operator` is never imported by
`exactAdders.py`). -/
theorem c3_k0_pairs_differ :
    approx_bk_adder [true, false, false, false] [true, true, true, false] 0 =
      some [false, false, false, false] ∧
    bk_adder [true, false, false, false] [true, true, true, false] = none ∧
    approx_bk_adder [true, false, false, false] [true, true, true, false] 0 ≠
      bk_adder [true, false, false, false] [true, true, true, false] ∧
    approx_ks_adder [true, true] [true, false] 0 = some [false, false] ∧
    ks_adder [true, true] [true, false] = none ∧
    approx_ks_adder [true, true] [true, false] 0 ≠
      ks_adder [true, true] [true, false] := by
  decide

/-! ### C4 counterexample: containment fails as stated -/

/-- Counterexample to claim C4.  First part: W = 4, a = 3, b = 1,
K = 4: the exact carry into position K is 0 and no carry generated
below K reaches position K (3 + 1 = 4 < 2^4), yet the approximate
Kogge-Stone sum is not bit-identical to the exact engine's: `ks_adder`
raises on this input (so in particular the sums are not identical),
and against the engine's own exact mode (K = 0, which the spec says
reproduces the exact adder) the sums differ too, 0 vs 4 -- the
discrepancy comes from a carry chain lying entirely BELOW K.  Second
part: W = 6, a = 29, b = 1, K = 4: again no carry crosses the boundary
(29 % 16 + 1 % 16 = 14 < 16), and the K = 4 and K = 0 sums differ
even at position 5 ABOVE the boundary. -/
theorem c4_no_crossing_still_diverges :
    (binListToInt [true, true, false, false] % 16 +
      binListToInt [true, false, false, false] % 16 < 16) ∧
    approx_ks_adder [true, true, false, false] [true, false, false, false] 4 =
      some [false, false, false, false] ∧
    ks_adder [true, true, false, false] [true, false, false, false] = none ∧
    approx_ks_adder [true, true, false, false] [true, false, false, false] 4 ≠
      ks_adder [true, true, false, false] [true, false, false, false] ∧
    approx_ks_adder [true, true, false, false] [true, false, false, false] 0 =
      some [false, false, true, false] ∧
    approx_ks_adder [true, true, false, false] [true, false, false, false] 4 ≠
      approx_ks_adder [true, true, false, false] [true, false, false, false] 0 ∧
    (binListToInt [true, false, true, true, true, false] % 16 +
      binListToInt [true, false, false, false, false, false] % 16 < 16) ∧
    approx_ks_adder [true, false, true, true, true, false]
        [true, false, false, false, false, false] 4 =
      some [false, true, true, true, true, true] ∧
    approx_ks_adder [true, false, true, true, true, false]
        [true, false, false, false, false, false] 0 =
      some [false, true, true, true, true, false] := by
  decide

/-! ### C5 counterexample: the seed carry reaches only bit K -/

/-- Counterexample to claim C5.  W = 3, K = 1, a = 3, b = 1: the code's
`AxppaBk.add` returns 0 (sum bits [0,0,0]), while adding the upper
slices exactly WITH carry-in equal to the LSB chain's carry-out would
give upper value 2 (so sum 100₂ = 4): the code overwrites only
`exact_carry[0]` after computing the tree, so the seed does not
propagate past bit K. -/
theorem c5_seed_does_not_propagate :
    axppaBkSumBits 3 1 3 1 = [false, false, false] ∧
    axppaBkAdd 3 1 3 1 = some 0 ∧
    specUpperValue 3 1 3 1 = 2 ∧
    binListToInt (List.drop 1 (axppaBkSumBits 3 1 3 1)) = 0 ∧
    (0 : ℕ) ≠ 2 := by
  decide

/-! ### C7 counterexample: engines accept K outside [0, W] -/

/-- Counterexample to claim C7: invoked with K = 10 on W = 2 inputs
(and with K = -3), every one of the four approximate engines returns a
sum instead of failing. -/
theorem c7_engines_accept_out_of_range_k :
    approx_bk_adder [true, true] [false, true] 10 = some [true, false] ∧
    approx_ks_adder [true, true] [false, true] 10 = some [true, false] ∧
    approx_sk_adder [true, true] [false, true] 10 = some [true, false] ∧
    approx_lf_adder [true, true] [false, true] 10 = some [true, false] ∧
    approx_ks_adder [true, true] [false, true] (-3) = some [true, false] := by
  decide

/-! ### Stage-level congruence machinery -/

theorem stagesFrom_congr (f g : ℕ → (ℕ → GP) → (ℕ → GP)) (st : ℕ → GP)
    (h : ∀ s x, f s x = g s x) :
    ∀ n, stagesFrom f st n = stagesFrom g st n := by
  intro n
  induction n with
  | zero => rfl
  | succ n ih => simp only [stagesFrom, ih, h]

theorem stagesFrom_fixed (f : ℕ → (ℕ → GP) → (ℕ → GP)) (st : ℕ → GP)
    (h : ∀ s, f s st = st) :
    ∀ n, stagesFrom f st n = st := by
  intro n
  induction n with
  | zero => rfl
  | succ n ih => simp only [stagesFrom, ih, h]

theorem ksStageA_zero (W d : ℕ) (st : ℕ → GP) :
    ksStageA 0 W d st = ksStage W d st := by
  funext i
  unfold ksStageA ksStage
  split
  · rw [if_neg (by omega : ¬ ((i : Int) < 0))]
  · rfl

theorem skStageA_zero (W d : ℕ) (st : ℕ → GP) :
    skStageA 0 W d st = skStage W d st := by
  funext i
  unfold skStageA skStage
  split
  · rw [if_neg (by omega : ¬ ((i : Int) < 0))]
  · rfl

theorem lfStageA_zero (W d : ℕ) (st : ℕ → GP) :
    lfStageA 0 W d st = lfStage W d st := by
  funext i
  unfold lfStageA lfStage
  split
  · rw [if_neg (by omega : ¬ ((i : Int) < 0))]
  · rfl

theorem ksStageA_frozen {K : Int} {W : ℕ} (d : ℕ) (st : ℕ → GP)
    (h : (W : Int) ≤ K) : ksStageA K W d st = st := by
  funext i
  unfold ksStageA
  split
  · next hc =>
    rw [if_pos (by omega : (i : Int) < K)]
    rfl
  · rfl

theorem skStageA_frozen {K : Int} {W : ℕ} (d : ℕ) (st : ℕ → GP)
    (h : (W : Int) ≤ K) : skStageA K W d st = st := by
  funext i
  unfold skStageA
  split
  · next hc =>
    rw [if_pos (by omega : (i : Int) < K)]
    rfl
  · rfl

theorem lfStageA_frozen {K : Int} {W : ℕ} (d : ℕ) (st : ℕ → GP)
    (h : (W : Int) ≤ K) : lfStageA K W d st = st := by
  funext i
  unfold lfStageA
  split
  · next hc =>
    rw [if_pos (by omega : (i : Int) < K)]
    rfl
  · rfl

theorem ksStageA_congr {K L : Int} {W : ℕ} (d : ℕ) (st : ℕ → GP)
    (h : ∀ i : ℕ, i < W → (((i : Int) < K) ↔ ((i : Int) < L))) :
    ksStageA K W d st = ksStageA L W d st := by
  funext i
  unfold ksStageA
  split
  · next hc =>
    exact congrArg (fun F : GP → GP → GP => F (st (i - d)) (st i))
        (if_congr (h i hc.1) rfl rfl)
  · rfl

theorem skStageA_congr {K L : Int} {W : ℕ} (d : ℕ) (st : ℕ → GP)
    (h : ∀ i : ℕ, i < W → (((i : Int) < K) ↔ ((i : Int) < L))) :
    skStageA K W d st = skStageA L W d st := by
  funext i
  unfold skStageA
  split
  · next hc =>
    exact congrArg
      (fun F : GP → GP → GP => F (st (2 * d * (i / (2 * d)) + d - 1)) (st i))
      (if_congr (h i hc.1) rfl rfl)
  · rfl

theorem lfStageA_congr {K L : Int} {W : ℕ} (d : ℕ) (st : ℕ → GP)
    (h : ∀ i : ℕ, i < W → (((i : Int) < K) ↔ ((i : Int) < L))) :
    lfStageA K W d st = lfStageA L W d st := by
  funext i
  unfold lfStageA
  split
  · next hc =>
    exact congrArg (fun F : GP → GP → GP => F (st (i - d)) (st i))
        (if_congr (h i hc.1) rfl rfl)
  · rfl

/-! ### C3 (amended): K = 0 agrees with the exact engines only in
degenerate cases, because the exact engines raise on every W ≥ 2 input -/

theorem stagesFromOpt_none_of_first (f : ℕ → (ℕ → GP) → Option (ℕ → GP))
    (st : ℕ → GP) (h : f 0 st = none) :
    ∀ n, 1 ≤ n → stagesFromOpt f st n = none := by
  intro n hn
  induction n with
  | zero => omega
  | succ m ih =>
    rcases Nat.eq_zero_or_pos m with rfl | hm
    · exact h
    · show (stagesFromOpt f st m).bind (f m) = none
      rw [ih hm]
      rfl

theorem ks_adder_none_of_two_le (a b : List Bool) (h2 : 2 ≤ a.length) :
    ks_adder a b = none := by
  unfold ks_adder
  by_cases hb : b.length < a.length
  · rw [if_pos hb]
  · rw [if_neg hb, if_neg (by omega : ¬ a.length = 0),
      stagesFromOpt_none_of_first _ _
        (by
          show ksStageRaise a.length (2 ^ 0) (gpFun a b) = none
          unfold ksStageRaise
          rw [if_pos (by omega : 2 ^ 0 < a.length)])
        _ (clog2_pos h2)]

theorem sk_adder_none_of_two_le (a b : List Bool) (h2 : 2 ≤ a.length) :
    sk_adder a b = none := by
  unfold sk_adder
  by_cases hb : b.length < a.length
  · rw [if_pos hb]
  · rw [if_neg hb, if_neg (by omega : ¬ a.length = 0),
      stagesFromOpt_none_of_first _ _
        (by
          show skStageRaise a.length (2 ^ 0) (gpFun a b) = none
          unfold skStageRaise
          rw [if_pos (by omega : 2 ^ 0 < a.length)])
        _ (clog2_pos h2)]

theorem lf_adder_none_of_two_le (a b : List Bool) (h2 : 2 ≤ a.length) :
    lf_adder a b = none := by
  unfold lf_adder
  by_cases hb : b.length < a.length
  · rw [if_pos hb]
  · rw [if_neg hb, if_neg (by omega : ¬ a.length = 0),
      stagesFromOpt_none_of_first _ _
        (by
          show lfStageRaise a.length (2 ^ 0) (gpFun a b) = none
          unfold lfStageRaise
          rw [if_pos (by omega : 2 ^ 0 < a.length)])
        _ (clog2_pos h2)]

/-- Claim C3 as amended.  At K = 0 the approximate engine agrees with
the exact engine of the same topology only in degenerate cases: for
Kogge-Stone, Sklansky and Ladner-Fischer the two coincide (same sum
bits, same error behaviour) exactly on inputs of width ≤ 1, where no
merge runs; on every equal-length input of width ≥ 2 ALL FOUR exact
engines raise (`ks/sk/lf_adder` at their first merge, the name
`prefix_operator` being unbound in `exactAdders.py`; `bk_adder` from
its buffer overrun), while all four approximate engines at K = 0
return a sum, so the claimed equality fails for every topology. -/
theorem c3_k0_agreement_only_degenerate :
    ∀ a b : List Bool,
      (a.length ≤ 1 →
        approx_ks_adder a b 0 = ks_adder a b ∧
        approx_sk_adder a b 0 = sk_adder a b ∧
        approx_lf_adder a b 0 = lf_adder a b) ∧
      (2 ≤ a.length → b.length = a.length →
        (approx_ks_adder a b 0).isSome ∧ ks_adder a b = none ∧
        (approx_sk_adder a b 0).isSome ∧ sk_adder a b = none ∧
        (approx_lf_adder a b 0).isSome ∧ lf_adder a b = none ∧
        (approx_bk_adder a b 0).isSome ∧ bk_adder a b = none) := by
  intro a b
  constructor
  · intro hlen
    rcases Nat.le_one_iff_eq_zero_or_eq_one.mp hlen with h0 | h1
    · refine ⟨?_, ?_, ?_⟩
      · simp only [approx_ks_adder, ks_adder, h0]
        rw [if_pos trivial, if_pos trivial]
      · simp only [approx_sk_adder, sk_adder, h0]
        rw [if_pos trivial, if_pos trivial]
      · simp only [approx_lf_adder, lf_adder, h0]
        rw [if_pos trivial, if_pos trivial]
    · by_cases hb : b.length < 1
      · refine ⟨?_, ?_, ?_⟩
        · simp only [approx_ks_adder, ks_adder, h1]
          rw [if_pos hb, if_pos hb]
        · simp only [approx_sk_adder, sk_adder, h1]
          rw [if_pos hb, if_pos hb]
        · simp only [approx_lf_adder, lf_adder, h1]
          rw [if_pos hb, if_pos hb]
      · refine ⟨?_, ?_, ?_⟩
        · simp only [approx_ks_adder, ks_adder, h1]
          rw [if_neg hb, if_neg hb, if_neg one_ne_zero, if_neg one_ne_zero]
          rfl
        · simp only [approx_sk_adder, sk_adder, h1]
          rw [if_neg hb, if_neg hb, if_neg one_ne_zero, if_neg one_ne_zero]
          rfl
        · simp only [approx_lf_adder, lf_adder, h1]
          rw [if_neg hb, if_neg hb, if_neg one_ne_zero, if_neg one_ne_zero]
          rfl
  · intro h2 hb
    have hnb : ¬ (b.length < a.length) := by omega
    have h0 : ¬ (a.length = 0) := by omega
    refine ⟨?_, ks_adder_none_of_two_le a b h2, ?_,
      sk_adder_none_of_two_le a b h2, ?_, lf_adder_none_of_two_le a b h2,
      ?_, bk_adder_eq_none a b⟩
    · simp only [approx_ks_adder]
      rw [if_neg hnb, if_neg h0]
      rfl
    · simp only [approx_sk_adder]
      rw [if_neg hnb, if_neg h0]
      rfl
    · simp only [approx_lf_adder]
      rw [if_neg hnb, if_neg h0]
      rfl
    · simp only [approx_bk_adder]
      rw [if_neg hnb, if_neg h0]
      rfl

/-- Witness for C3's amended statement: agreement at width 1, and the
width-2 divergence (approximate returns a sum, the exact engine
raises). -/
theorem c3_k0_witness :
    approx_ks_adder [true] [true] 0 = ks_adder [true] [true] ∧
      (approx_ks_adder [true, true] [true, false] 0).isSome ∧
      ks_adder [true, true] [true, false] = none :=
  ⟨((c3_k0_agreement_only_degenerate [true] [true]).1 (by decide)).1,
    ((c3_k0_agreement_only_degenerate [true, true] [true, false]).2
      (by decide) rfl).1,
    (((c3_k0_agreement_only_degenerate [true, true] [true, false]).2
      (by decide) rfl).2).1⟩

/-! ### C9: K = W truncates every carry chain to length one -/

/-- Claim C9.  With maximal approximation K = W, every merge is the
approximate one, so the staged (G, P) arrays never change; all four
approximate engines return the identical sum
`sum[0] = a[0] XOR b[0]`,
`sum[i] = (a[i] XOR b[i]) XOR (a[i-1] AND b[i-1])`. -/
theorem c9_kw_truncated_formula :
    ∀ a b : List Bool, b.length = a.length → 1 ≤ a.length →
      approx_bk_adder a b (a.length : Int) = some (truncCarryFormula a b) ∧
      approx_ks_adder a b (a.length : Int) = some (truncCarryFormula a b) ∧
      approx_sk_adder a b (a.length : Int) = some (truncCarryFormula a b) ∧
      approx_lf_adder a b (a.length : Int) = some (truncCarryFormula a b) := by
  intro a b hb hw
  have hbk : ¬ (b.length < a.length) := by omega
  have h0 : ¬ (a.length = 0) := by omega
  refine ⟨?_, ?_, ?_, ?_⟩
  · simp only [approx_bk_adder]
    rw [if_neg hbk, if_neg h0,
      stagesFrom_fixed _ (gpFun a b)
        (fun s => ksStageA_frozen (2 ^ s) (gpFun a b) (le_refl _))]
    rfl
  · simp only [approx_ks_adder]
    rw [if_neg hbk, if_neg h0,
      stagesFrom_fixed _ (gpFun a b)
        (fun s => ksStageA_frozen (2 ^ s) (gpFun a b) (le_refl _))]
    rfl
  · simp only [approx_sk_adder]
    rw [if_neg hbk, if_neg h0,
      stagesFrom_fixed _ (gpFun a b)
        (fun s => skStageA_frozen (2 ^ s) (gpFun a b) (le_refl _))]
    rfl
  · simp only [approx_lf_adder]
    rw [if_neg hbk, if_neg h0,
      stagesFrom_fixed _ (gpFun a b)
        (fun s => lfStageA_frozen (2 ^ s) (gpFun a b) (le_refl _))]
    rfl

/-- Witness for C9 at W = 2, a = 3, b = 1, K = 2. -/
theorem c9_kw_witness :
    approx_ks_adder [true, true] [true, false] 2 =
      some (truncCarryFormula [true, true] [true, false]) :=
  (c9_kw_truncated_formula [true, true] [true, false] rfl (by decide)).2.1

/-! ### C10: any integer K behaves like K clamped into [0, W] -/

/-- Claim C10.  Each approximate engine accepts any integer K without
error (it returns a sum whenever the inputs themselves are valid), and
its result coincides with the result for K clamped into [0, W]: the
boundary test is simply `target index < K`. -/
theorem c10_clamp_equivalence :
    ∀ (a b : List Bool) (K : Int), b.length = a.length →
      (approx_bk_adder a b K =
          approx_bk_adder a b (max 0 (min K (a.length : Int))) ∧
        approx_ks_adder a b K =
          approx_ks_adder a b (max 0 (min K (a.length : Int))) ∧
        approx_sk_adder a b K =
          approx_sk_adder a b (max 0 (min K (a.length : Int))) ∧
        approx_lf_adder a b K =
          approx_lf_adder a b (max 0 (min K (a.length : Int)))) ∧
      (1 ≤ a.length →
        (approx_bk_adder a b K).isSome ∧ (approx_ks_adder a b K).isSome ∧
        (approx_sk_adder a b K).isSome ∧ (approx_lf_adder a b K).isSome) := by
  intro a b K hb
  have hiff : ∀ i : ℕ, i < a.length →
      (((i : Int) < K) ↔ ((i : Int) < max 0 (min K (a.length : Int)))) := by
    intro i hi
    omega
  constructor
  · refine ⟨?_, ?_, ?_, ?_⟩
    · simp only [approx_bk_adder]
      rw [stagesFrom_congr _ _ (gpFun a b)
        (fun s x => ksStageA_congr (2 ^ s) x hiff)]
    · simp only [approx_ks_adder]
      rw [stagesFrom_congr _ _ (gpFun a b)
        (fun s x => ksStageA_congr (2 ^ s) x hiff)]
    · simp only [approx_sk_adder]
      rw [stagesFrom_congr _ _ (gpFun a b)
        (fun s x => skStageA_congr (2 ^ s) x hiff)]
    · simp only [approx_lf_adder]
      rw [stagesFrom_congr _ _ (gpFun a b)
        (fun s x => lfStageA_congr (2 ^ s) x hiff)]
  · intro hw
    have hbk : ¬ (b.length < a.length) := by omega
    have h0 : ¬ (a.length = 0) := by omega
    refine ⟨?_, ?_, ?_, ?_⟩
    · simp only [approx_bk_adder]
      rw [if_neg hbk, if_neg h0]
      rfl
    · simp only [approx_ks_adder]
      rw [if_neg hbk, if_neg h0]
      rfl
    · simp only [approx_sk_adder]
      rw [if_neg hbk, if_neg h0]
      rfl
    · simp only [approx_lf_adder]
      rw [if_neg hbk, if_neg h0]
      rfl

/-- Witness for C10 at W = 2, a = 3, b = 2, K = 7 (clamped to 2). -/
theorem c10_clamp_witness :
    approx_ks_adder [true, true] [false, true] 7 =
      approx_ks_adder [true, true] [false, true] (max 0 (min 7 (2 : Int))) :=
  ((c10_clamp_equivalence [true, true] [false, true] 7 rfl).1).2.1

/-! ### C7 (amended): only the AxppaBk class validates K -/

/-- Claim C7 as amended: the four approximate engines perform no
validation of K -- with any integer K (also outside [0, W]) they
return a sum without failing -- while the class-based `AxppaBk`
variant asserts `0 <= K <= width` on construction and fails
immediately, producing no result, for K outside [0, W]. -/
theorem c7_only_axppabk_validates :
    ∀ (a b : List Bool) (K : Int), b.length = a.length → 1 ≤ a.length →
      ((approx_bk_adder a b K).isSome ∧ (approx_ks_adder a b K).isSome ∧
        (approx_sk_adder a b K).isSome ∧ (approx_lf_adder a b K).isSome) ∧
      (∀ (w x y : ℕ) (k : Int), k < 0 ∨ (w : Int) < k →
        axppaBkAdd w k x y = none) := by
  intro a b K hb hw
  have hbk : ¬ (b.length < a.length) := by omega
  have h0 : ¬ (a.length = 0) := by omega
  refine ⟨⟨?_, ?_, ?_, ?_⟩, ?_⟩
  · simp only [approx_bk_adder]
    rw [if_neg hbk, if_neg h0]
    rfl
  · simp only [approx_ks_adder]
    rw [if_neg hbk, if_neg h0]
    rfl
  · simp only [approx_sk_adder]
    rw [if_neg hbk, if_neg h0]
    rfl
  · simp only [approx_lf_adder]
    rw [if_neg hbk, if_neg h0]
    rfl
  · intro w x y k hk
    unfold axppaBkAdd
    rw [if_neg (by omega)]

/-- Witness for C7: K = 10 on W = 2 engine inputs, and the failing
AxppaBk construction at width 2, K = 3. -/
theorem c7_validation_witness :
    (approx_ks_adder [true, true] [false, true] 10).isSome ∧
      axppaBkAdd 2 3 1 1 = none :=
  ⟨((c7_only_axppabk_validates [true, true] [false, true] 10 rfl
      (by decide)).1).2.1,
    (c7_only_axppabk_validates [true, true] [false, true] 10 rfl
      (by decide)).2 2 1 1 3 (by decide)⟩

/-! ### C5 (amended): the LSB-chain seed reaches only bit K -/

theorem div_mul_div_pow (a k j : ℕ) :
    a / 2 ^ k * 2 ^ k / 2 ^ (k + j) = a / 2 ^ (k + j) := by
  rw [pow_add, ← Nat.div_div_eq_div_mul,
    Nat.mul_div_cancel _ (pow_pos (by norm_num : (0 : ℕ) < 2) k),
    Nat.div_div_eq_div_mul, ← pow_add]

theorem natBit_zeroLow_eq (a k i : ℕ) (h : k ≤ i) :
    natBit (a / 2 ^ k * 2 ^ k) i = natBit a i := by
  obtain ⟨j, rfl⟩ : ∃ j, i = k + j := ⟨i - k, by omega⟩
  unfold natBit
  rw [div_mul_div_pow]

theorem axGP_zeroLow_high (a b k : ℕ) :
    (fun i => axGP (a / 2 ^ k * 2 ^ k) (b / 2 ^ k * 2 ^ k) (k + i)) =
      (fun i => axGP a b (k + i)) := by
  funext i
  unfold axGP
  rw [natBit_zeroLow_eq a k (k + i) (by omega),
    natBit_zeroLow_eq b k (k + i) (by omega)]

theorem axTreeCarry_zeroLow (w k a b : ℕ) :
    axTreeCarry w k (a / 2 ^ k * 2 ^ k) (b / 2 ^ k * 2 ^ k) =
      axTreeCarry w k a b := by
  unfold axTreeCarry
  rw [axGP_zeroLow_high]

/-- Claim C5 as amended: in `AxppaBk.add` the LSB chain's carry-out is
injected ONLY into sum bit K (`sum[K] = p[K] XOR carryOut`); the sum
bits strictly above K come from the exact tree over the upper slices
computed with carry-in 0, so they are unchanged when the K low bits of
both operands are zeroed (which makes the seed 0) -- the seed does not
propagate past bit K. -/
theorem c5_upper_bits_independent_of_low :
    ∀ w k a b : ℕ, k ≤ w →
      List.drop (k + 1) (axppaBkSumBits w k a b) =
        List.drop (k + 1)
          (axppaBkSumBits w k (a / 2 ^ k * 2 ^ k) (b / 2 ^ k * 2 ^ k)) ∧
      (k < w →
        (axppaBkSumBits w k a b).getD k false =
          (axGP a b k).2.xor (axSeed k a b)) := by
  intro w k a b hkw
  have hdrop : ∀ (X Y : List Bool), X.length = k →
      (X ++ Y).drop (k + 1) = Y.drop 1 := by
    intro X Y h
    subst h
    rw [← List.drop_drop 1 X.length, List.drop_left]
  constructor
  · unfold axppaBkSumBits
    rw [hdrop _ _ (by simp), hdrop _ _ (by simp)]
    rcases Nat.eq_zero_or_pos (w - k) with h0 | hpos
    · rw [h0]
      rfl
    · obtain ⟨m, hm⟩ : ∃ m, w - k = m + 1 := ⟨w - k - 1, by omega⟩
      rw [hm, List.ofFn_succ, List.ofFn_succ]
      simp only [List.drop_one, List.tail_cons]
      refine congrArg List.ofFn (funext fun i => ?_)
      simp only [Fin.val_succ, Nat.succ_ne_zero, if_false]
      rw [axTreeCarry_zeroLow]
      unfold axGP
      rw [natBit_zeroLow_eq a k (k + (i.val + 1)) (by omega),
        natBit_zeroLow_eq b k (k + (i.val + 1)) (by omega)]
  · intro hkltw
    unfold axppaBkSumBits
    rw [List.getD_append_right _ _ _ _ (by simp), show k - (List.ofFn
      (n := k) fun i => (axGP a b i.val).2.xor
        (axChainCarry (fun j => (axGP a b j).1) (fun j => (axGP a b j).2)
          i.val)).length = 0 from by simp]
    obtain ⟨m, hm⟩ : ∃ m, w - k = m + 1 := ⟨w - k - 1, by omega⟩
    rw [hm, List.ofFn_succ]
    simp

/-- Witness for C5 at width 3, K = 1, a = 3, b = 1. -/
theorem c5_upper_bits_witness :
    List.drop (1 + 1) (axppaBkSumBits 3 1 3 1) =
      List.drop (1 + 1)
        (axppaBkSumBits 3 1 (3 / 2 ^ 1 * 2 ^ 1) (1 / 2 ^ 1 * 2 ^ 1)) ∧
      (axppaBkSumBits 3 1 3 1).getD 1 false =
        (axGP 3 1 1).2.xor (axSeed 1 3 1) :=
  ⟨(c5_upper_bits_independent_of_low 3 1 3 1 (by decide)).1,
    (c5_upper_bits_independent_of_low 3 1 3 1 (by decide)).2 (by decide)⟩

/-! ### C4 (amended): containment under "no generate below K"

The invariant relating an approximate run to the exact run of the same
topology, when no position below the boundary generates a carry:
(1) the G components agree everywhere at every stage;
(2) in the exact run, positions below K have G = false at every stage;
(3) positions whose accumulated span has not dipped below K agree as
full (G, P) pairs. -/

theorem mergeOp_fst (l r : GP) : (mergeOp l r).1 = (r.1 || (r.2 && l.1)) := rfl

theorem ksStageA_app_approx {K : Int} {W d i : ℕ} (st : ℕ → GP)
    (hc : i < W ∧ d ≤ i) (hk : (i : Int) < K) :
    ksStageA K W d st i = st i := by
  unfold ksStageA
  rw [if_pos hc, if_pos hk]
  rfl

theorem ksStageA_app_exact {K : Int} {W d i : ℕ} (st : ℕ → GP)
    (hc : i < W ∧ d ≤ i) (hk : ¬ ((i : Int) < K)) :
    ksStageA K W d st i = mergeOp (st (i - d)) (st i) := by
  unfold ksStageA
  rw [if_pos hc, if_neg hk]

theorem ksStageA_app_skip {K : Int} {W d i : ℕ} (st : ℕ → GP)
    (hc : ¬ (i < W ∧ d ≤ i)) :
    ksStageA K W d st i = st i := by
  unfold ksStageA
  rw [if_neg hc]

theorem ksStage_app_merge {W d i : ℕ} (st : ℕ → GP) (hc : i < W ∧ d ≤ i) :
    ksStage W d st i = mergeOp (st (i - d)) (st i) := by
  unfold ksStage
  rw [if_pos hc]

theorem ksStage_app_skip {W d i : ℕ} (st : ℕ → GP) (hc : ¬ (i < W ∧ d ≤ i)) :
    ksStage W d st i = st i := by
  unfold ksStage
  rw [if_neg hc]

theorem ks_containment_inv (W : ℕ) (K : Int) (gp : ℕ → GP)
    (hg : ∀ i, i < W → (i : Int) < K → (gp i).1 = false) :
    ∀ s,
      (∀ i, i < W →
        (stagesFrom (fun s st => ksStageA K W (2 ^ s) st) gp s i).1 =
          (stagesFrom (fun s st => ksStage W (2 ^ s) st) gp s i).1) ∧
      (∀ i, i < W → (i : Int) < K →
        (stagesFrom (fun s st => ksStage W (2 ^ s) st) gp s i).1 = false) ∧
      (∀ i, i < W → (K + 2 ^ s - 1 : Int) ≤ (i : Int) →
        stagesFrom (fun s st => ksStageA K W (2 ^ s) st) gp s i =
          stagesFrom (fun s st => ksStage W (2 ^ s) st) gp s i) := by
  intro s
  induction s with
  | zero =>
    exact ⟨fun i _ => rfl, fun i hi hk => hg i hi hk, fun i _ _ => rfl⟩
  | succ s ih =>
    obtain ⟨ih1, ih2, ih3⟩ := ih
    have hpZ : ((2 : Int)) ^ (s + 1) = 2 * 2 ^ s := by ring
    have hpZpos : (0 : Int) < 2 ^ s := pow_pos (by norm_num) s
    refine ⟨?_, ?_, ?_⟩
    · intro i hi
      simp only [stagesFrom]
      by_cases hc : i < W ∧ 2 ^ s ≤ i
      · have hjW : i - 2 ^ s < W := by
          have := pow_pos (by norm_num : (0 : ℕ) < 2) s
          omega
        have hcast : ((i - 2 ^ s : ℕ) : Int) = (i : Int) - 2 ^ s := by
          push_cast [hc.2]
          ring
        by_cases hk : (i : Int) < K
        · have hjk : ((i - 2 ^ s : ℕ) : Int) < K := by
            rw [hcast]
            omega
          rw [ksStageA_app_approx _ hc hk, ksStage_app_merge _ hc, mergeOp_fst,
            ih1 i hi, ih2 i hi hk, ih2 _ hjW hjk]
          simp
        · rw [ksStageA_app_exact _ hc hk, ksStage_app_merge _ hc]
          by_cases hP : (K + 2 ^ s - 1 : Int) ≤ (i : Int)
          · rw [mergeOp_fst, mergeOp_fst, ih3 i hi hP, ih1 _ hjW]
          · have hjk : ((i - 2 ^ s : ℕ) : Int) < K := by
              rw [hcast]
              omega
            have hEj := ih2 _ hjW hjk
            have hAj : (stagesFrom (fun s st => ksStageA K W (2 ^ s) st) gp s
                (i - 2 ^ s)).1 = false := by
              rw [ih1 _ hjW]
              exact hEj
            rw [mergeOp_fst, mergeOp_fst, hEj, hAj, ih1 i hi]
            simp
      · rw [ksStageA_app_skip _ hc, ksStage_app_skip _ hc]
        exact ih1 i hi
    · intro i hi hk
      simp only [stagesFrom]
      by_cases hc : i < W ∧ 2 ^ s ≤ i
      · have hjW : i - 2 ^ s < W := by
          have := pow_pos (by norm_num : (0 : ℕ) < 2) s
          omega
        have hcast : ((i - 2 ^ s : ℕ) : Int) = (i : Int) - 2 ^ s := by
          push_cast [hc.2]
          ring
        have hjk : ((i - 2 ^ s : ℕ) : Int) < K := by
          rw [hcast]
          omega
        rw [ksStage_app_merge _ hc, mergeOp_fst, ih2 i hi hk, ih2 _ hjW hjk]
        simp
      · rw [ksStage_app_skip _ hc]
        exact ih2 i hi hk
    · intro i hi hcond
      have hcond' : (K + 2 ^ s - 1 : Int) ≤ (i : Int) := by
        rw [hpZ] at hcond
        omega
      simp only [stagesFrom]
      by_cases hc : i < W ∧ 2 ^ s ≤ i
      · have hjW : i - 2 ^ s < W := by
          have := pow_pos (by norm_num : (0 : ℕ) < 2) s
          omega
        have hcast : ((i - 2 ^ s : ℕ) : Int) = (i : Int) - 2 ^ s := by
          push_cast [hc.2]
          ring
        have hk : ¬ ((i : Int) < K) := by
          rw [hpZ] at hcond
          omega
        have hjcond : (K + 2 ^ s - 1 : Int) ≤ ((i - 2 ^ s : ℕ) : Int) := by
          rw [hcast]
          rw [hpZ] at hcond
          omega
        rw [ksStageA_app_exact _ hc hk, ksStage_app_merge _ hc,
          ih3 i hi hcond', ih3 _ hjW hjcond]
      · rw [ksStageA_app_skip _ hc, ksStage_app_skip _ hc]
        exact ih3 i hi hcond'

theorem lfStageA_app_approx {K : Int} {W d i : ℕ} (st : ℕ → GP)
    (hc : i < W ∧ i % (2 * d) = d) (hk : (i : Int) < K) :
    lfStageA K W d st i = st i := by
  unfold lfStageA
  rw [if_pos hc, if_pos hk]
  rfl

theorem lfStageA_app_exact {K : Int} {W d i : ℕ} (st : ℕ → GP)
    (hc : i < W ∧ i % (2 * d) = d) (hk : ¬ ((i : Int) < K)) :
    lfStageA K W d st i = mergeOp (st (i - d)) (st i) := by
  unfold lfStageA
  rw [if_pos hc, if_neg hk]

theorem lfStageA_app_skip {K : Int} {W d i : ℕ} (st : ℕ → GP)
    (hc : ¬ (i < W ∧ i % (2 * d) = d)) :
    lfStageA K W d st i = st i := by
  unfold lfStageA
  rw [if_neg hc]

theorem lfStage_app_merge {W d i : ℕ} (st : ℕ → GP)
    (hc : i < W ∧ i % (2 * d) = d) :
    lfStage W d st i = mergeOp (st (i - d)) (st i) := by
  unfold lfStage
  rw [if_pos hc]

theorem lfStage_app_skip {W d i : ℕ} (st : ℕ → GP)
    (hc : ¬ (i < W ∧ i % (2 * d) = d)) :
    lfStage W d st i = st i := by
  unfold lfStage
  rw [if_neg hc]

theorem lf_containment_inv (W : ℕ) (K : Int) (gp : ℕ → GP)
    (hg : ∀ i, i < W → (i : Int) < K → (gp i).1 = false) :
    ∀ s,
      (∀ i, i < W →
        (stagesFrom (fun s st => lfStageA K W (2 ^ s) st) gp s i).1 =
          (stagesFrom (fun s st => lfStage W (2 ^ s) st) gp s i).1) ∧
      (∀ i, i < W → (i : Int) < K →
        (stagesFrom (fun s st => lfStage W (2 ^ s) st) gp s i).1 = false) ∧
      (∀ i, i < W → 2 ^ s ∣ i →
        stagesFrom (fun s st => lfStageA K W (2 ^ s) st) gp s i =
          stagesFrom (fun s st => lfStage W (2 ^ s) st) gp s i) := by
  intro s
  induction s with
  | zero =>
    exact ⟨fun i _ => rfl, fun i hi hk => hg i hi hk, fun i _ _ => rfl⟩
  | succ s ih =>
    obtain ⟨ih1, ih2, ih3⟩ := ih
    have hpos : (0 : ℕ) < 2 ^ s := pow_pos (by norm_num) s
    have hps : (2 : ℕ) ^ (s + 1) = 2 * 2 ^ s := by ring
    refine ⟨?_, ?_, ?_⟩
    · intro i hi
      simp only [stagesFrom]
      by_cases hc : i < W ∧ i % (2 * 2 ^ s) = 2 ^ s
      · have hdm := Nat.div_add_mod i (2 * 2 ^ s)
        have hdle : 2 ^ s ≤ i := by omega
        have hjW : i - 2 ^ s < W := by omega
        have hjdvd : 2 ^ s ∣ i - 2 ^ s := by
          refine ⟨2 * (i / (2 * 2 ^ s)), ?_⟩
          have hring : 2 ^ s * (2 * (i / (2 * 2 ^ s))) =
              2 * 2 ^ s * (i / (2 * 2 ^ s)) := by ring
          omega
        have hidvd : 2 ^ s ∣ i := by
          refine ⟨2 * (i / (2 * 2 ^ s)) + 1, ?_⟩
          have hring : 2 ^ s * (2 * (i / (2 * 2 ^ s)) + 1) =
              2 * 2 ^ s * (i / (2 * 2 ^ s)) + 2 ^ s := by ring
          omega
        by_cases hk : (i : Int) < K
        · have hjk : ((i - 2 ^ s : ℕ) : Int) < K := by
            have : ((i - 2 ^ s : ℕ) : Int) ≤ (i : Int) :=
              Int.ofNat_le.mpr (Nat.sub_le i (2 ^ s))
            omega
          rw [lfStageA_app_approx _ hc hk, lfStage_app_merge _ hc, mergeOp_fst,
            ih1 i hi, ih2 i hi hk, ih2 _ hjW hjk]
          simp
        · rw [lfStageA_app_exact _ hc hk, lfStage_app_merge _ hc,
            ih3 i hi hidvd, ih3 _ hjW hjdvd]
      · rw [lfStageA_app_skip _ hc, lfStage_app_skip _ hc]
        exact ih1 i hi
    · intro i hi hk
      simp only [stagesFrom]
      by_cases hc : i < W ∧ i % (2 * 2 ^ s) = 2 ^ s
      · have hdm := Nat.div_add_mod i (2 * 2 ^ s)
        have hjW : i - 2 ^ s < W := by omega
        have hjk : ((i - 2 ^ s : ℕ) : Int) < K := by
          have : ((i - 2 ^ s : ℕ) : Int) ≤ (i : Int) :=
            Int.ofNat_le.mpr (Nat.sub_le i (2 ^ s))
          omega
        rw [lfStage_app_merge _ hc, mergeOp_fst, ih2 i hi hk, ih2 _ hjW hjk]
        simp
      · rw [lfStage_app_skip _ hc]
        exact ih2 i hi hk
    · intro i hi hdvd
      rw [hps] at hdvd
      have hmod : i % (2 * 2 ^ s) = 0 := Nat.mod_eq_zero_of_dvd hdvd
      have hc : ¬ (i < W ∧ i % (2 * 2 ^ s) = 2 ^ s) := by
        intro hcc
        omega
      have hidvd : 2 ^ s ∣ i := by
        obtain ⟨c, hcq⟩ := hdvd
        refine ⟨2 * c, ?_⟩
        rw [hcq]
        ring
      simp only [stagesFrom]
      rw [lfStageA_app_skip _ hc, lfStage_app_skip _ hc]
      exact ih3 i hi hidvd

theorem skStageA_app_approx {K : Int} {W d i : ℕ} (st : ℕ → GP)
    (hc : i < W ∧ d ≤ i % (2 * d)) (hk : (i : Int) < K) :
    skStageA K W d st i = st i := by
  unfold skStageA
  rw [if_pos hc, if_pos hk]
  rfl

theorem skStageA_app_exact {K : Int} {W d i : ℕ} (st : ℕ → GP)
    (hc : i < W ∧ d ≤ i % (2 * d)) (hk : ¬ ((i : Int) < K)) :
    skStageA K W d st i = mergeOp (st (2 * d * (i / (2 * d)) + d - 1)) (st i) := by
  unfold skStageA
  rw [if_pos hc, if_neg hk]

theorem skStageA_app_skip {K : Int} {W d i : ℕ} (st : ℕ → GP)
    (hc : ¬ (i < W ∧ d ≤ i % (2 * d))) :
    skStageA K W d st i = st i := by
  unfold skStageA
  rw [if_neg hc]

theorem skStage_app_merge {W d i : ℕ} (st : ℕ → GP)
    (hc : i < W ∧ d ≤ i % (2 * d)) :
    skStage W d st i = mergeOp (st (2 * d * (i / (2 * d)) + d - 1)) (st i) := by
  unfold skStage
  rw [if_pos hc]

theorem skStage_app_skip {W d i : ℕ} (st : ℕ → GP)
    (hc : ¬ (i < W ∧ d ≤ i % (2 * d))) :
    skStage W d st i = st i := by
  unfold skStage
  rw [if_neg hc]

theorem natDivHelper (n q r : ℕ) (hn : 0 < n) (h : r < n) : (n * q + r) / n = q := by
  rw [Nat.mul_add_div hn, Nat.div_eq_of_lt h, Nat.add_zero]

theorem sk_containment_inv (W : ℕ) (K : Int) (gp : ℕ → GP)
    (hg : ∀ i, i < W → (i : Int) < K → (gp i).1 = false) :
    ∀ s,
      (∀ i, i < W →
        (stagesFrom (fun s st => skStageA K W (2 ^ s) st) gp s i).1 =
          (stagesFrom (fun s st => skStage W (2 ^ s) st) gp s i).1) ∧
      (∀ i, i < W → (i : Int) < K →
        (stagesFrom (fun s st => skStage W (2 ^ s) st) gp s i).1 = false) ∧
      (∀ i, i < W → K ≤ ((2 ^ s * (i / 2 ^ s) : ℕ) : Int) →
        stagesFrom (fun s st => skStageA K W (2 ^ s) st) gp s i =
          stagesFrom (fun s st => skStage W (2 ^ s) st) gp s i) := by
  intro s
  induction s with
  | zero =>
    refine ⟨fun i _ => rfl, fun i hi hk => hg i hi hk, fun i _ _ => rfl⟩
  | succ s ih =>
    obtain ⟨ih1, ih2, ih3⟩ := ih
    have hpos : (0 : ℕ) < 2 ^ s := pow_pos (by norm_num) s
    have hps : (2 : ℕ) ^ (s + 1) = 2 * 2 ^ s := by ring
    have hDpos : (0 : ℕ) < 2 * 2 ^ s := by omega
    refine ⟨?_, ?_, ?_⟩
    · intro i hi
      simp only [stagesFrom]
      by_cases hc : i < W ∧ 2 ^ s ≤ i % (2 * 2 ^ s)
      · have hdm := Nat.div_add_mod i (2 * 2 ^ s)
        have hLlt : 2 * 2 ^ s * (i / (2 * 2 ^ s)) + 2 ^ s - 1 < i := by
          have := hc.2
          omega
        have hLW : 2 * 2 ^ s * (i / (2 * 2 ^ s)) + 2 ^ s - 1 < W := by omega
        have hmlt : i % (2 * 2 ^ s) < 2 * 2 ^ s := Nat.mod_lt i hDpos
        have hring1 : 2 ^ s * (2 * (i / (2 * 2 ^ s)) + 1) =
            2 * 2 ^ s * (i / (2 * 2 ^ s)) + 2 ^ s := by ring
        have hi2 : i = 2 ^ s * (2 * (i / (2 * 2 ^ s)) + 1) +
            (i % (2 * 2 ^ s) - 2 ^ s) := by
          have := hc.2
          omega
        have hdiv : i / 2 ^ s = 2 * (i / (2 * 2 ^ s)) + 1 := by
          conv_lhs => rw [hi2]
          exact natDivHelper _ _ _ hpos (by omega)
        have e1 : 2 ^ s * (i / 2 ^ s) =
            2 * 2 ^ s * (i / (2 * 2 ^ s)) + 2 ^ s := by
          rw [hdiv]
          ring
        by_cases hk : (i : Int) < K
        · have hLk : ((2 * 2 ^ s * (i / (2 * 2 ^ s)) + 2 ^ s - 1 : ℕ) : Int)
              < K := by
            have := Int.ofNat_lt.mpr hLlt
            omega
          rw [skStageA_app_approx _ hc hk, skStage_app_merge _ hc, mergeOp_fst,
            ih1 i hi, ih2 i hi hk, ih2 _ hLW hLk]
          simp
        · rw [skStageA_app_exact _ hc hk, skStage_app_merge _ hc]
          by_cases hP : K ≤ ((2 ^ s * (i / 2 ^ s) : ℕ) : Int)
          · rw [mergeOp_fst, mergeOp_fst, ih3 i hi hP, ih1 _ hLW]
          · rw [e1] at hP
            have hLk : ((2 * 2 ^ s * (i / (2 * 2 ^ s)) + 2 ^ s - 1 : ℕ) : Int)
                < K := by
              omega
            have hEL := ih2 _ hLW hLk
            have hAL : (stagesFrom (fun s st => skStageA K W (2 ^ s) st) gp s
                (2 * 2 ^ s * (i / (2 * 2 ^ s)) + 2 ^ s - 1)).1 = false := by
              rw [ih1 _ hLW]
              exact hEL
            rw [mergeOp_fst, mergeOp_fst, hEL, hAL, ih1 i hi]
            simp
      · rw [skStageA_app_skip _ hc, skStage_app_skip _ hc]
        exact ih1 i hi
    · intro i hi hk
      simp only [stagesFrom]
      by_cases hc : i < W ∧ 2 ^ s ≤ i % (2 * 2 ^ s)
      · have hdm := Nat.div_add_mod i (2 * 2 ^ s)
        have hLlt : 2 * 2 ^ s * (i / (2 * 2 ^ s)) + 2 ^ s - 1 < i := by
          have := hc.2
          omega
        have hLW : 2 * 2 ^ s * (i / (2 * 2 ^ s)) + 2 ^ s - 1 < W := by omega
        have hLk : ((2 * 2 ^ s * (i / (2 * 2 ^ s)) + 2 ^ s - 1 : ℕ) : Int)
            < K := by
          have := Int.ofNat_lt.mpr hLlt
          omega
        rw [skStage_app_merge _ hc, mergeOp_fst, ih2 i hi hk, ih2 _ hLW hLk]
        simp
      · rw [skStage_app_skip _ hc]
        exact ih2 i hi hk
    · intro i hi hcond
      rw [hps] at hcond
      by_cases hc : i < W ∧ 2 ^ s ≤ i % (2 * 2 ^ s)
      · have hdm := Nat.div_add_mod i (2 * 2 ^ s)
        have hmlt : i % (2 * 2 ^ s) < 2 * 2 ^ s := Nat.mod_lt i hDpos
        have hLW : 2 * 2 ^ s * (i / (2 * 2 ^ s)) + 2 ^ s - 1 < W := by
          have := hc.2
          omega
        have hring1 : 2 ^ s * (2 * (i / (2 * 2 ^ s)) + 1) =
            2 * 2 ^ s * (i / (2 * 2 ^ s)) + 2 ^ s := by ring
        have hi2 : i = 2 ^ s * (2 * (i / (2 * 2 ^ s)) + 1) +
            (i % (2 * 2 ^ s) - 2 ^ s) := by
          have := hc.2
          omega
        have hdiv : i / 2 ^ s = 2 * (i / (2 * 2 ^ s)) + 1 := by
          conv_lhs => rw [hi2]
          exact natDivHelper _ _ _ hpos (by omega)
        have e1 : 2 ^ s * (i / 2 ^ s) =
            2 * 2 ^ s * (i / (2 * 2 ^ s)) + 2 ^ s := by
          rw [hdiv]
          ring
        have hring2 : 2 ^ s * (2 * (i / (2 * 2 ^ s))) =
            2 * 2 ^ s * (i / (2 * 2 ^ s)) := by ring
        have hL2 : 2 * 2 ^ s * (i / (2 * 2 ^ s)) + 2 ^ s - 1 =
            2 ^ s * (2 * (i / (2 * 2 ^ s))) + (2 ^ s - 1) := by omega
        have e2' : (2 * 2 ^ s * (i / (2 * 2 ^ s)) + 2 ^ s - 1) / 2 ^ s =
            2 * (i / (2 * 2 ^ s)) := by
          conv_lhs => rw [hL2]
          exact natDivHelper _ _ _ hpos (by omega)
        have e2 : 2 ^ s * ((2 * 2 ^ s * (i / (2 * 2 ^ s)) + 2 ^ s - 1) / 2 ^ s)
            = 2 * 2 ^ s * (i / (2 * 2 ^ s)) := by
          rw [e2']
          ring
        have hiP : 2 * 2 ^ s * (i / (2 * 2 ^ s)) + 2 ^ s ≤ i := by
          have := hc.2
          omega
        have hk : ¬ ((i : Int) < K) := by omega
        have hci : K ≤ ((2 ^ s * (i / 2 ^ s) : ℕ) : Int) := by
          rw [e1]
          omega
        have hcL : K ≤ ((2 ^ s *
            ((2 * 2 ^ s * (i / (2 * 2 ^ s)) + 2 ^ s - 1) / 2 ^ s) : ℕ) : Int)
            := by
          rw [e2]
          exact hcond
        simp only [stagesFrom]
        rw [skStageA_app_exact _ hc hk, skStage_app_merge _ hc,
          ih3 i hi hci, ih3 _ hLW hcL]
      · have hrlt : i % (2 * 2 ^ s) < 2 ^ s := by
          rcases Nat.lt_or_ge (i % (2 * 2 ^ s)) (2 ^ s) with h | h
          · exact h
          · exact absurd ⟨hi, h⟩ hc
        have hdm := Nat.div_add_mod i (2 * 2 ^ s)
        have hring2 : 2 ^ s * (2 * (i / (2 * 2 ^ s))) =
            2 * 2 ^ s * (i / (2 * 2 ^ s)) := by ring
        have hi0 : i = 2 ^ s * (2 * (i / (2 * 2 ^ s))) + i % (2 * 2 ^ s) := by
          omega
        have hdiv0 : i / 2 ^ s = 2 * (i / (2 * 2 ^ s)) := by
          conv_lhs => rw [hi0]
          exact natDivHelper _ _ _ hpos hrlt
        have e0 : 2 ^ s * (i / 2 ^ s) = 2 * 2 ^ s * (i / (2 * 2 ^ s)) := by
          rw [hdiv0]
          ring
        have hci : K ≤ ((2 ^ s * (i / 2 ^ s) : ℕ) : Int) := by
          rw [e0]
          exact hcond
        simp only [stagesFrom]
        rw [skStageA_app_skip _ hc, skStage_app_skip _ hc]
        exact ih3 i hi hci

/-- Claim C4 as amended.  The claim's hypothesis (no carry chain
crosses from below K to at-or-above K) is not sufficient (see the
counterexample: chains entirely below K are also truncated, and the
frozen approximate region can even corrupt positions above K), and the
claim's "exact adder" reference must be read as the engine's own
K = 0 invocation, since the standalone exact engines raise on every
width ≥ 2 input.  The statement that holds is: for all four
topologies, if NO position below K generates a carry (a[i] AND b[i]
= 0 for all i < K, so in particular no chain crosses the boundary),
the approximate engine's output at boundary K is identical to its
output at K = 0, its exact mode. -/
theorem c4_no_generate_below_k_containment :
    ∀ (a b : List Bool) (K : Int),
      (∀ i, i < a.length → (i : Int) < K →
        (a.getD i false && b.getD i false) = false) →
      approx_ks_adder a b K = approx_ks_adder a b 0 ∧
      approx_sk_adder a b K = approx_sk_adder a b 0 ∧
      approx_lf_adder a b K = approx_lf_adder a b 0 ∧
      approx_bk_adder a b K = approx_bk_adder a b 0 := by
  intro a b K hg
  have hgp : ∀ i, i < a.length → (i : Int) < K → (gpFun a b i).1 = false :=
    fun i hi hk => hg i hi hk
  refine ⟨?_, ?_, ?_, ?_⟩
  · simp only [approx_ks_adder]
    by_cases hb : b.length < a.length
    · rw [if_pos hb, if_pos hb]
    · rw [if_neg hb, if_neg hb]
      by_cases h0 : a.length = 0
      · rw [if_pos h0, if_pos h0]
      · rw [if_neg h0, if_neg h0,
          stagesFrom_congr _ _ _ (fun s x => ksStageA_zero a.length (2 ^ s) x)]
        refine congrArg some ?_
        unfold mkSumBits
        refine congrArg List.ofFn (funext fun i => ?_)
        by_cases hz : i.val = 0
        · rw [if_pos hz, if_pos hz]
        · rw [if_neg hz, if_neg hz,
            (ks_containment_inv a.length K (gpFun a b) hgp
              (clog2 a.length)).1 (i.val - 1) (by have := i.isLt; omega)]
  · simp only [approx_sk_adder]
    by_cases hb : b.length < a.length
    · rw [if_pos hb, if_pos hb]
    · rw [if_neg hb, if_neg hb]
      by_cases h0 : a.length = 0
      · rw [if_pos h0, if_pos h0]
      · rw [if_neg h0, if_neg h0,
          stagesFrom_congr _ _ _ (fun s x => skStageA_zero a.length (2 ^ s) x)]
        refine congrArg some ?_
        unfold mkSumBits
        refine congrArg List.ofFn (funext fun i => ?_)
        by_cases hz : i.val = 0
        · rw [if_pos hz, if_pos hz]
        · rw [if_neg hz, if_neg hz,
            (sk_containment_inv a.length K (gpFun a b) hgp
              (clog2 a.length)).1 (i.val - 1) (by have := i.isLt; omega)]
  · simp only [approx_lf_adder]
    by_cases hb : b.length < a.length
    · rw [if_pos hb, if_pos hb]
    · rw [if_neg hb, if_neg hb]
      by_cases h0 : a.length = 0
      · rw [if_pos h0, if_pos h0]
      · rw [if_neg h0, if_neg h0,
          stagesFrom_congr _ _ _ (fun s x => lfStageA_zero a.length (2 ^ s) x)]
        refine congrArg some ?_
        unfold mkSumBits
        refine congrArg List.ofFn (funext fun i => ?_)
        by_cases hz : i.val = 0
        · rw [if_pos hz, if_pos hz]
        · rw [if_neg hz, if_neg hz,
            (lf_containment_inv a.length K (gpFun a b) hgp
              (clog2 a.length)).1 (i.val - 1) (by have := i.isLt; omega)]
  · simp only [approx_bk_adder]
    by_cases hb : b.length < a.length
    · rw [if_pos hb, if_pos hb]
    · rw [if_neg hb, if_neg hb]
      by_cases h0 : a.length = 0
      · rw [if_pos h0, if_pos h0]
      · rw [if_neg h0, if_neg h0,
          stagesFrom_congr _ _ _ (fun s x => ksStageA_zero a.length (2 ^ s) x)]
        refine congrArg some ?_
        unfold mkSumBits
        refine congrArg List.ofFn (funext fun i => ?_)
        by_cases hz : i.val = 0
        · rw [if_pos hz, if_pos hz]
        · rw [if_neg hz, if_neg hz,
            (ks_containment_inv a.length K (gpFun a b) hgp
              (clog2 a.length - 1)).1 (i.val - 1) (by have := i.isLt; omega)]

/-- Witness for C4 at W = 3, a = [0,1,1] (6), b = [1,0,1] (5), K = 2:
no generate below 2, and each engine's output at K = 2 matches its
K = 0 (exact-mode) output. -/
theorem c4_containment_witness :
    approx_ks_adder [false, true, true] [true, false, true] 2 =
      approx_ks_adder [false, true, true] [true, false, true] 0 ∧
    approx_sk_adder [false, true, true] [true, false, true] 2 =
      approx_sk_adder [false, true, true] [true, false, true] 0 ∧
    approx_lf_adder [false, true, true] [true, false, true] 2 =
      approx_lf_adder [false, true, true] [true, false, true] 0 ∧
    approx_bk_adder [false, true, true] [true, false, true] 2 =
      approx_bk_adder [false, true, true] [true, false, true] 0 :=
  c4_no_generate_below_k_containment [false, true, true] [true, false, true] 2
    (by decide)
